import Mathlib

/-!
Shallow embedding of the memory subsystem of `rustlantis`
(`src/generate/src/mem/mod.rs`), together with proofs checking the
natural-language specification against it.

Modelling notes:
* `ProjectionIndex` (the opaque edge identifier) is modelled as `Nat`.
* `Size` is modelled as a byte count (`Nat`).
* The coalesced interval map `RangeMap<Vec<Borrow>>` is modelled per byte
  (one borrow stack per byte).  Every operation the claims touch
  (`add_borrow`, `remove_borrow`, `remove_all_below`,
  `above_first_shared`, `can_write_through`) acts uniformly on each
  coalesced sub-interval, and each byte of a coalesced interval carries
  the identical stack, so the per-byte view is observationally equal.
* `above_first_shared`/`below_first_shared` collect edges into a
  `BTreeSet` (sorted, deduplicated) in the source; the claims only use
  membership (`contains`), which agrees with the plain concatenation
  used here.
* `HashMap<ProjectionIndex, SmallVec<RunPointer>>` is modelled as an
  association list with unique keys; the source only uses keyed lookup,
  insertion and removal on it, never whole-map iteration.
-/

namespace Rustlantis

/-- Code: `AbstractByte` — an (un)initialized byte. -/
inductive AbstractByte
  | Uninit
  | Init
deriving DecidableEq

/-- Code: `BorrowType`. -/
inductive BorrowType
  | Raw
  | Shared
  | Exclusive
deriving DecidableEq

/-- Code: `Borrow { borrow_type, edge }` with `edge : ProjectionIndex` as `Nat`. -/
structure Borrow where
  borrow_type : BorrowType
  edge : Nat
deriving DecidableEq

/-! ### Generic list helpers (index-aware map and point modification) -/

/-- Apply `f i a` to every element, indices starting at `n`. -/
def mapIdxFrom (f : Nat → α → α) : Nat → List α → List α
  | _, [] => []
  | n, a :: as => f n a :: mapIdxFrom f (n + 1) as

/-- Modify the element at index `n` (no-op when out of bounds). -/
def listModify (f : α → α) : Nat → List α → List α
  | _, [] => []
  | 0, a :: as => f a :: as
  | n + 1, a :: as => a :: listModify f n as

theorem mapIdxFrom_getElem? (f : Nat → α → α) (n : Nat) (l : List α) (i : Nat) :
    (mapIdxFrom f n l)[i]? = (l[i]?).map (f (n + i)) := by
  induction l generalizing n i with
  | nil => simp [mapIdxFrom]
  | cons a as ih =>
    cases i with
    | zero => simp [mapIdxFrom]
    | succ j =>
      simp only [mapIdxFrom, List.getElem?_cons_succ]
      rw [ih (n + 1) j]
      ring_nf

theorem mapIdxFrom_length (f : Nat → α → α) (n : Nat) (l : List α) :
    (mapIdxFrom f n l).length = l.length := by
  induction l generalizing n with
  | nil => rfl
  | cons a as ih => simp [mapIdxFrom, ih]

theorem listModify_getElem? (f : α → α) (n : Nat) (l : List α) (i : Nat) :
    (listModify f n l)[i]? = if i = n then (l[i]?).map f else l[i]? := by
  induction l generalizing n i with
  | nil => simp [listModify]
  | cons a as ih =>
    cases n with
    | zero =>
      cases i with
      | zero => simp [listModify]
      | succ j => simp [listModify]
    | succ m =>
      cases i with
      | zero => simp [listModify]
      | succ j =>
        simp only [listModify, List.getElem?_cons_succ]
        rw [ih m j]
        simp

theorem mapIdxFrom_eq_self (f : Nat → α → α) (n : Nat) (l : List α)
    (h : ∀ i x, l[i]? = some x → f (n + i) x = x) : mapIdxFrom f n l = l := by
  induction l generalizing n with
  | nil => rfl
  | cons a as ih =>
    simp only [mapIdxFrom, List.cons.injEq]
    constructor
    · have := h 0 a (by simp)
      simpa using this
    · exact ih (n + 1) (fun i x hx => by
        have := h (i + 1) x (by simpa using hx)
        simpa [Nat.add_assoc, Nat.add_comm 1 i] using this)

theorem listModify_eq_self (f : α → α) (n : Nat) (l : List α)
    (h : ∀ x, l[n]? = some x → f x = x) : listModify f n l = l := by
  induction l generalizing n with
  | nil => cases n <;> rfl
  | cons a as ih =>
    cases n with
    | zero => simp only [listModify]; rw [h a (by simp)]
    | succ m =>
      simp only [listModify, List.cons.injEq, true_and]
      exact ih m (fun x hx => h x (by simpa using hx))

theorem listModify_listModify (f g : α → α) (n : Nat) (l : List α) :
    listModify f n (listModify g n l) = listModify (fun a => f (g a)) n l := by
  induction l generalizing n with
  | nil => cases n <;> rfl
  | cons a as ih =>
    cases n with
    | zero => simp [listModify]
    | succ m => simp [listModify, ih]

/-! ### Per-stack operations -/

/-- Code: `Run::remove_borrow` body on one stack — remove the first borrow
carrying `edge`, if any. -/
def removeBorrowStack (edge : Nat) : List Borrow → List Borrow
  | [] => []
  | b :: bs => if b.edge = edge then bs else b :: removeBorrowStack edge bs

/-- Position of the first `Shared` borrow in a stack
(code: `stack.iter().position(|b| b.borrow_type == BorrowType::Shared)`). -/
def firstSharedIdx : List Borrow → Option Nat
  | [] => none
  | b :: bs =>
    if b.borrow_type = BorrowType.Shared then some 0
    else (firstSharedIdx bs).map (· + 1)

/-- Edges strictly before the first `Shared` borrow of one stack
(code: `stack[..first_shared]` inside `Run::above_first_shared`);
empty when the stack has no `Shared` borrow. -/
def stackAboveFirstShared (s : List Borrow) : List Nat :=
  match firstSharedIdx s with
  | some i => (s.take i).map Borrow.edge
  | none => []

/-- Position of the first borrow carrying `edge`
(code: `stack.iter().position(|b| b.edge == edge)`). -/
def edgeIdx (edge : Nat) : List Borrow → Option Nat
  | [] => none
  | b :: bs =>
    if b.edge = edge then some 0
    else (edgeIdx edge bs).map (· + 1)

/-- Code: `Run::remove_all_below` effect on one stack — truncate at the
first occurrence of `edge` (keeping the strictly earlier part). -/
def truncAtEdge (edge : Nat) (s : List Borrow) : List Borrow :=
  match edgeIdx edge s with
  | some i => s.take i
  | none => s

/-- Edges removed from one stack by `Run::remove_all_below`
(code: `stack[index..].iter().map(|borrow| borrow.edge)`). -/
def removedAtEdge (edge : Nat) (s : List Borrow) : List Nat :=
  match edgeIdx edge s with
  | some i => (s.drop i).map Borrow.edge
  | none => []

/-- Whether byte index `i` lies in `[offset, offset + len)`
(the byte range addressed by a `RangeMap` query). -/
def inRange (offset len i : Nat) : Bool :=
  decide (offset ≤ i) && decide (i < offset + len)

/-! ### Run: a contiguous padding-free region -/

/-- Code: `Run { bytes, ref_stack }`, with the `RangeMap` viewed per byte. -/
structure Run where
  bytes : List AbstractByte
  ref_stack : List (List Borrow)
deriving DecidableEq

/-- Code: `Run::new_uninit`. -/
def Run.new_uninit (size : Nat) : Run :=
  { bytes := List.replicate size AbstractByte.Uninit
    ref_stack := List.replicate size [] }

/-- Code: `Run::add_borrow` — push `{borrow_type, edge}` on every covered byte. -/
def Run.add_borrow (r : Run) (offset len : Nat) (bt : BorrowType) (edge : Nat) : Run :=
  { r with
    ref_stack :=
      mapIdxFrom
        (fun i s => if inRange offset len i then s ++ [⟨bt, edge⟩] else s) 0 r.ref_stack }

/-- Code: `Run::remove_borrow` — drop the first borrow carrying `edge`
from every covered byte. -/
def Run.remove_borrow (r : Run) (offset len : Nat) (edge : Nat) : Run :=
  { r with
    ref_stack :=
      mapIdxFrom
        (fun i s => if inRange offset len i then removeBorrowStack edge s else s) 0
        r.ref_stack }

/-- Code: `Run::remove_all_below` (mutation part) — truncate every covered
byte's stack at `edge`. -/
def Run.remove_all_below (r : Run) (offset len : Nat) (edge : Nat) : Run :=
  { r with
    ref_stack :=
      mapIdxFrom
        (fun i s => if inRange offset len i then truncAtEdge edge s else s) 0 r.ref_stack }

/-- Edges collected by `Run::remove_all_below` across the covered bytes
(the source collects per coalesced interval into a `Vec`, possibly with
duplicates; the per-byte collection has the same members). -/
def collectRemoved (edge offset len : Nat) : Nat → List (List Borrow) → List Nat
  | _, [] => []
  | i, s :: rest =>
    (if inRange offset len i then removedAtEdge edge s else []) ++
      collectRemoved edge offset len (i + 1) rest

def Run.removed_below (r : Run) (offset len : Nat) (edge : Nat) : List Nat :=
  collectRemoved edge offset len 0 r.ref_stack

/-- Union (as concatenation; the source deduplicates into a `BTreeSet`,
with identical membership) of the above-first-shared edges over the
covered bytes. -/
def collectAbove (offset len : Nat) : Nat → List (List Borrow) → List Nat
  | _, [] => []
  | i, s :: rest =>
    (if inRange offset len i then stackAboveFirstShared s else []) ++
      collectAbove offset len (i + 1) rest

/-- Code: `Run::above_first_shared`. -/
def Run.above_first_shared (r : Run) (offset len : Nat) : List Nat :=
  collectAbove offset len 0 r.ref_stack

/-- Code: `Run::can_write_through` —
`self.above_first_shared(offset, len).contains(&edge)`. -/
def Run.can_write_through (r : Run) (offset len : Nat) (edge : Nat) : Bool :=
  (r.above_first_shared offset len).contains edge

/-! ### Addressing: byte ranges and resolved pointers -/

/-- Code: `Range<usize>` as used for byte ranges (`start..stop`). -/
structure ByteRange where
  start : Nat
  stop : Nat
deriving DecidableEq

/-- Membership of a point in a half-open byte range. -/
def ByteRange.mem (rg : ByteRange) (x : Nat) : Prop :=
  rg.start ≤ x ∧ x < rg.stop

instance (rg : ByteRange) (x : Nat) : Decidable (rg.mem x) := by
  unfold ByteRange.mem; infer_instance

/-- Code: `RangeExt::overlap for Range<usize>` —
`self.start <= other.end && other.start <= self.end` (inclusive ends). -/
def ByteRange.overlap (a b : ByteRange) : Bool :=
  decide (a.start ≤ b.stop) && decide (b.start ≤ a.stop)

/-- Code: `RangeExt::subtract` — up to two fragments `left` and `right`
(the source `assert!`s overlap first; the claims carry that hypothesis). -/
def ByteRange.subtract (a b : ByteRange) : Option ByteRange × Option ByteRange :=
  (if a.start < b.start then some ⟨a.start, b.start⟩ else none,
   if b.stop < a.stop then some ⟨b.stop, a.stop⟩ else none)

/-- Code: `RunPointer { alloc_id, run_and_offset, size }`, with
`RunAndOffset` flattened into the `run` and `offset` fields. -/
structure RunPointer where
  alloc_id : Nat
  run : Nat
  offset : Nat
  size : Nat
deriving DecidableEq

/-- Code: `RunPointer::bytes_range`. -/
def RunPointer.bytes_range (p : RunPointer) : ByteRange :=
  ⟨p.offset, p.offset + p.size⟩

/-- Code: `RunPointer::from_bytes_range` (`Size::from_bytes(range.count())`
is `stop - start` for these half-open ranges). -/
def RunPointer.from_bytes_range (rg : ByteRange) (alloc run : Nat) : RunPointer :=
  ⟨alloc, run, rg.start, rg.stop - rg.start⟩

/-- Code: `RunPointer::overlap` — same allocation, same run
(`RunAndOffset::same_run`), and inclusive byte-range intersection. -/
def RunPointer.overlap (a b : RunPointer) : Bool :=
  if a.alloc_id ≠ b.alloc_id then false
  else if a.run ≠ b.run then false
  else a.bytes_range.overlap b.bytes_range

/-- Whether resolved pointer `p` covers byte `i` of run `r` of allocation `a`. -/
def RunPointer.covers (p : RunPointer) (a r i : Nat) : Bool :=
  decide (p.alloc_id = a) && decide (p.run = r) &&
    decide (p.offset ≤ i) && decide (i < p.offset + p.size)

/-! ### Allocations and the memory store -/

/-- Code: `Allocation { runs, live }`. -/
structure Allocation where
  runs : List Run
  live : Bool
deriving DecidableEq

/-- Code: `BasicMemory { allocations, pointers }` — the reverse index
`pointers` is an association list with unique keys standing for the
`HashMap` (only keyed lookup/insert/remove are used by the source). -/
structure Memory where
  allocations : List Allocation
  pointers : List (Nat × List RunPointer)
deriving DecidableEq

/-- Code: `BasicMemory::new`. -/
def Memory.new : Memory := { allocations := [], pointers := [] }

/-- Keyed lookup in the reverse index (`HashMap::get`). -/
def lookupPtrs : List (Nat × List RunPointer) → Nat → Option (List RunPointer)
  | [], _ => none
  | (k, v) :: rest, e => if k = e then some v else lookupPtrs rest e

/-- Keyed removal from the reverse index (`HashMap::remove`). -/
def erasePtrs : List (Nat × List RunPointer) → Nat → List (Nat × List RunPointer)
  | [], _ => []
  | kv :: rest, e => if kv.1 = e then erasePtrs rest e else kv :: erasePtrs rest e

/-- Keyed insertion/replacement in the reverse index (`HashMap::insert`). -/
def insertPtrs (m : List (Nat × List RunPointer)) (e : Nat) (v : List RunPointer) :
    List (Nat × List RunPointer) :=
  (e, v) :: erasePtrs m e

/-- Modify run `r` of allocation `a` in place (no-op out of bounds;
the claims always carry in-bounds hypotheses, matching the source's
panic-on-out-of-bounds indexing). -/
def Memory.modifyRun (m : Memory) (a r : Nat) (f : Run → Run) : Memory :=
  { m with
    allocations :=
      listModify (fun al => { al with runs := listModify f r al.runs }) a m.allocations }

/-- Code: `AllocationBuilder` driven by `allocate_with_builder` — one fresh
allocation whose runs are `Run::new_uninit size` for each requested size,
with `live := true`; its id is the previous table length. -/
def Memory.allocateWithRuns (m : Memory) (sizes : List Nat) : Memory :=
  { m with
    allocations := m.allocations ++ [{ runs := sizes.map Run.new_uninit, live := true }] }

/-- Code: `BasicMemory::deallocate` — clear the liveness flag. -/
def Memory.deallocate (m : Memory) (a : Nat) : Memory :=
  { m with allocations := listModify (fun al => { al with live := false }) a m.allocations }

/-- Code: `BasicMemory::is_live`. -/
def Memory.isLive (m : Memory) (a : Nat) : Bool :=
  ((m.allocations[a]?).map Allocation.live).getD false

/-- Structural bounds check for a resolved pointer: its allocation and run
exist and its byte range fits the run (the source panics otherwise). -/
def Memory.inBounds (m : Memory) (p : RunPointer) : Bool :=
  match m.allocations[p.alloc_id]? with
  | none => false
  | some al =>
    match al.runs[p.run]? with
    | none => false
    | some run => decide (p.offset + p.size ≤ run.bytes.length)

/-- Resolution of an allocation id and run id to the run
(`self.allocations[a].runs[r]` in the source; `none` when out of bounds). -/
def Memory.runAt (m : Memory) (a r : Nat) : Option Run :=
  (m.allocations[a]?).bind fun al => al.runs[r]?

/-- Byte content at a fully resolved address (`none` when out of bounds). -/
def Memory.byteAt (m : Memory) (a r i : Nat) : Option AbstractByte :=
  (m.runAt a r).bind fun run => run.bytes[i]?

/-- Borrow stack at a fully resolved address (`none` when out of bounds). -/
def Memory.stackAt (m : Memory) (a r i : Nat) : Option (List Borrow) :=
  (m.runAt a r).bind fun run => run.ref_stack[i]?

/-- Code: `BasicMemory::bytes` — asserts liveness, then slices
`bytes[run_ptr.bytes_range()]`; fatal outcomes are `none`. -/
def Memory.bytesOf (m : Memory) (p : RunPointer) : Option (List AbstractByte) :=
  match m.allocations[p.alloc_id]? with
  | none => none
  | some al =>
    if al.live then
      match al.runs[p.run]? with
      | none => none
      | some run =>
        if p.offset + p.size ≤ run.bytes.length then
          some ((run.bytes.drop p.offset).take p.size)
        else none
    else none

/-- Code: the write half of `BasicMemory::bytes_mut` — same liveness and
bounds checks as `bytes`, then replace the covered bytes with `data`. -/
def Memory.writeBytes (m : Memory) (p : RunPointer) (data : List AbstractByte) :
    Option Memory :=
  match m.allocations[p.alloc_id]? with
  | none => none
  | some al =>
    if al.live then
      match al.runs[p.run]? with
      | none => none
      | some run =>
        if p.offset + p.size ≤ run.bytes.length then
          some (m.modifyRun p.alloc_id p.run (fun run =>
            { run with
              bytes := run.bytes.take p.offset ++ data ++ run.bytes.drop (p.offset + p.size) }))
        else none
    else none

/-- Code: `BasicMemory::fill` — `self.bytes_mut(run_ptr).fill(val)`. -/
def Memory.fill (m : Memory) (p : RunPointer) (val : AbstractByte) : Option Memory :=
  m.writeBytes p (List.replicate p.size val)

/-- Code: `BasicMemory::copy` — `assert_eq!(dst.size, src.size)`, then read
`src` and write the snapshot into `dst`. -/
def Memory.copy (m : Memory) (dst src : RunPointer) : Option Memory :=
  if dst.size ≠ src.size then none
  else
    match m.bytesOf src with
    | none => none
    | some tmp => m.writeBytes dst tmp

/-- Code: `BasicMemory::add_ref` — push the borrow over `run_ptr`'s range
and append `run_ptr` to the reverse index entry of `edge`. -/
def Memory.addRef (m : Memory) (p : RunPointer) (bt : BorrowType) (edge : Nat) : Memory :=
  let m1 := m.modifyRun p.alloc_id p.run (fun run =>
    run.add_borrow p.offset p.size bt edge)
  { m1 with
    pointers :=
      match lookupPtrs m1.pointers edge with
      | some ps => insertPtrs m1.pointers edge (ps ++ [p])
      | none => insertPtrs m1.pointers edge [p] }

/-- Code: `BasicMemory::remove_ref` — take the edge's pointer set out of the
reverse index and remove the borrow over each recorded range. -/
def Memory.removeRef (m : Memory) (edge : Nat) : Memory :=
  match lookupPtrs m.pointers edge with
  | none => m
  | some ps =>
    let m1 := ps.foldl (fun acc p =>
      acc.modifyRun p.alloc_id p.run (fun run =>
        run.remove_borrow p.offset p.size edge)) m
    { m1 with pointers := erasePtrs m1.pointers edge }

/-- Code: `BasicMemory::derange` — subtract `p`'s range from every recorded
pointer of `edge` that overlaps it, dropping the entry when empty. -/
def Memory.derange (m : Memory) (edge : Nat) (p : RunPointer) : Memory :=
  match lookupPtrs m.pointers edge with
  | none => m
  | some ps =>
    let updated := ps.foldr (fun stored acc =>
      if stored.overlap p then
        (match (stored.bytes_range.subtract p.bytes_range).1 with
          | some rg => [RunPointer.from_bytes_range rg stored.alloc_id stored.run]
          | none => []) ++
        (match (stored.bytes_range.subtract p.bytes_range).2 with
          | some rg => [RunPointer.from_bytes_range rg stored.alloc_id stored.run]
          | none => []) ++ acc
      else stored :: acc) []
    if updated.isEmpty then { m with pointers := erasePtrs m.pointers edge }
    else { m with pointers := insertPtrs m.pointers edge updated }

/-- Code: `BasicMemory::remove_ref_below` — truncate the covered stacks at
`edge` and `derange` every removed edge (the returned `all_gone` list is
not needed by the claims). -/
def Memory.removeRefBelow (m : Memory) (edge : Nat) (p : RunPointer) : Memory :=
  let run := (m.runAt p.alloc_id p.run).getD { bytes := [], ref_stack := [] }
  let removed := run.removed_below p.offset p.size edge
  let m1 := m.modifyRun p.alloc_id p.run (fun run =>
    run.remove_all_below p.offset p.size edge)
  removed.foldl (fun acc d => acc.derange d p) m1

/-- Code: `BasicMemory::remove_ref_run_ptr` (memory effect; the boolean
result is not needed by the claims). -/
def Memory.removeRefRunPtr (m : Memory) (edge : Nat) (p : RunPointer) : Memory :=
  (m.modifyRun p.alloc_id p.run (fun run =>
    run.remove_borrow p.offset p.size edge)).derange edge p

/-- Code: `BasicMemory::copy_ref` — `assert_ne!(new, old)` (fatal when
equal), index `pointers[&old]` (fatal when absent), push `{borrow_type,
new}` over each recorded range, and store `old`'s pointer set under `new`. -/
def Memory.copyRef (m : Memory) (new old : Nat) (bt : BorrowType) : Option Memory :=
  if new = old then none
  else
    match lookupPtrs m.pointers old with
    | none => none
    | some ps =>
      let m1 := ps.foldl (fun acc p =>
        acc.modifyRun p.alloc_id p.run (fun run =>
          run.add_borrow p.offset p.size bt new)) m
      some { m1 with pointers := insertPtrs m1.pointers new ps }

/-- Code: `BasicMemory::can_write_through` — resolve the run and delegate
(the source panics on an unknown allocation or run; claims stay in bounds). -/
def Memory.can_write_through (m : Memory) (p : RunPointer) (edge : Nat) : Bool :=
  ((m.runAt p.alloc_id p.run).getD { bytes := [], ref_stack := [] }).can_write_through
    p.offset p.size edge

/-! ### Primitive size resolution -/

/-- Modelled from the spec: the type descriptors supplied by the external
`mir` crate (`TyId`/`TyKind`, not under `src/`) — primitives (unit,
boolean, character, fixed-width integers, floats, pointer-sized integers,
raw pointers, references), arrays, and composite/aggregate types
(represented by `tuple`). -/
inductive Ty
  | unit
  | bool
  | char
  | i8 | i16 | i32 | i64 | i128
  | u8 | u16 | u32 | u64 | u128
  | f32 | f64
  | isize | usize
  | rawPtr (pointee : Ty)
  | ref (pointee : Ty)
  | array (elem : Ty) (len : Nat)
  | tuple (fields : List Ty)

/-- Code: `BasicMemory::PTR_SIZE` — the configured pointer width in bytes
(`mem::size_of::<*const ()>()` on the 64-bit host). -/
def PTR_SIZE : Nat := 8

/-- Code: `BasicMemory::ty_size` (sizes in bytes; `Size::from_bits n` is
`n / 8` bytes for the byte-multiple widths used here). -/
def ty_size : Ty → Option Nat
  | .unit => some 0
  | .bool => some 1
  | .char => some 4
  | .i8 | .u8 => some 1
  | .i16 | .u16 => some 2
  | .i32 | .u32 => some 4
  | .i64 | .u64 => some 8
  | .i128 | .u128 => some 16
  | .f32 => some 4
  | .f64 => some 8
  | .isize | .usize => some PTR_SIZE
  | .rawPtr _ => some PTR_SIZE
  | .ref _ => some PTR_SIZE
  | .array elem len => (ty_size elem).map (fun s => s * len)
  | .tuple _ => none

/-! ## Lemmas about the first-shared split of a borrow stack -/

theorem firstSharedIdx_eq_none_iff (s : List Borrow) :
    firstSharedIdx s = none ↔ ∀ b ∈ s, b.borrow_type ≠ BorrowType.Shared := by
  induction s with
  | nil => simp [firstSharedIdx]
  | cons b bs ih =>
    by_cases h : b.borrow_type = BorrowType.Shared
    · simp [firstSharedIdx, h]
    · simp [firstSharedIdx, h, Option.map_eq_none', ih]

theorem hasShared_decomp (s : List Borrow)
    (h : ∃ b ∈ s, b.borrow_type = BorrowType.Shared) :
    ∃ pre b rest, s = pre ++ b :: rest ∧ b.borrow_type = BorrowType.Shared ∧
      ∀ b' ∈ pre, b'.borrow_type ≠ BorrowType.Shared := by
  induction s with
  | nil => simp at h
  | cons b0 bs ih =>
    by_cases h0 : b0.borrow_type = BorrowType.Shared
    · exact ⟨[], b0, bs, rfl, h0, by simp⟩
    · obtain ⟨b, hb, hsh⟩ := h
      rcases List.mem_cons.mp hb with rfl | hmem
      · exact absurd hsh h0
      · obtain ⟨pre, bb, rest, heq, hb1, hb2⟩ := ih ⟨b, hmem, hsh⟩
        refine ⟨b0 :: pre, bb, rest, by rw [heq]; rfl, hb1, ?_⟩
        intro b' hb'
        rcases List.mem_cons.mp hb' with rfl | h'
        · exact h0
        · exact hb2 _ h'

theorem mem_stackAboveFirstShared (e : Nat) (s : List Borrow) :
    e ∈ stackAboveFirstShared s ↔
      ∃ pre b rest, s = pre ++ b :: rest ∧ b.borrow_type = BorrowType.Shared ∧
        (∀ b' ∈ pre, b'.borrow_type ≠ BorrowType.Shared) ∧ e ∈ pre.map Borrow.edge := by
  induction s with
  | nil =>
    constructor
    · intro h; simp [stackAboveFirstShared, firstSharedIdx] at h
    · rintro ⟨pre, b, rest, heq, -, -, -⟩
      exact absurd heq (by cases pre <;> simp)
  | cons b0 bs ih =>
    by_cases h0 : b0.borrow_type = BorrowType.Shared
    · have hl : stackAboveFirstShared (b0 :: bs) = [] := by
        simp [stackAboveFirstShared, firstSharedIdx, h0]
      rw [hl]
      constructor
      · intro h; simp at h
      · rintro ⟨pre, b, rest, heq, hbsh, hpre, hmem⟩
        cases pre with
        | nil => simp at hmem
        | cons p ps =>
          rw [List.cons_append] at heq
          injection heq with h1 h2
          exact absurd h0 (h1 ▸ hpre p (by simp))
    · cases hfs : firstSharedIdx bs with
      | none =>
        have hl : stackAboveFirstShared (b0 :: bs) = [] := by
          simp [stackAboveFirstShared, firstSharedIdx, h0, hfs]
        rw [hl]
        constructor
        · intro h; simp at h
        · rintro ⟨pre, b, rest, heq, hbsh, hpre, hmem⟩
          have hnone := (firstSharedIdx_eq_none_iff bs).mp hfs
          exfalso
          cases pre with
          | nil =>
            simp only [List.nil_append] at heq
            injection heq with h1 h2
            rw [h1] at h0
            exact h0 hbsh
          | cons p ps =>
            rw [List.cons_append] at heq
            injection heq with h1 h2
            exact absurd hbsh (hnone b (by rw [h2]; simp))
      | some i =>
        have hl : stackAboveFirstShared (b0 :: bs) = b0.edge :: (bs.take i).map Borrow.edge := by
          simp [stackAboveFirstShared, firstSharedIdx, h0, hfs, List.take_succ_cons]
        have hr : stackAboveFirstShared bs = (bs.take i).map Borrow.edge := by
          simp [stackAboveFirstShared, hfs]
        rw [hl, List.mem_cons]
        constructor
        · rintro (rfl | hmem)
          · have hsome : ∃ b ∈ bs, b.borrow_type = BorrowType.Shared := by
              by_contra hcon
              push_neg at hcon
              have : firstSharedIdx bs = none :=
                (firstSharedIdx_eq_none_iff bs).mpr hcon
              rw [this] at hfs
              exact Option.noConfusion hfs
            obtain ⟨pre, b, rest, heq, hsh, hprefree⟩ := hasShared_decomp bs hsome
            refine ⟨b0 :: pre, b, rest, by rw [heq]; rfl, hsh, ?_, by simp⟩
            intro b' hb'
            rcases List.mem_cons.mp hb' with rfl | h'
            · exact h0
            · exact hprefree _ h'
          · rw [← hr] at hmem
            obtain ⟨pre, b, rest, heq, hsh, hprefree, hmem'⟩ := ih.mp hmem
            refine ⟨b0 :: pre, b, rest, by rw [heq]; rfl, hsh, ?_, by simp [hmem']⟩
            intro b' hb'
            rcases List.mem_cons.mp hb' with rfl | h'
            · exact h0
            · exact hprefree _ h'
        · rintro ⟨pre, b, rest, heq, hsh, hprefree, hmem⟩
          cases pre with
          | nil =>
            exfalso
            simp only [List.nil_append] at heq
            injection heq with h1 h2
            rw [h1] at h0
            exact h0 hsh
          | cons p ps =>
            rw [List.cons_append] at heq
            injection heq with h1 h2
            rw [List.map_cons, List.mem_cons] at hmem
            rcases hmem with h' | h'
            · exact Or.inl (by rw [h', ← h1])
            · refine Or.inr ?_
              rw [← hr]
              refine ih.mpr ⟨ps, b, rest, h2, hsh, ?_, by simpa using h'⟩
              intro b' hb'
              exact hprefree b' (by simp [hb'])

theorem mem_collectAbove (x off len : Nat) (n : Nat) (l : List (List Borrow)) :
    x ∈ collectAbove off len n l ↔
      ∃ i s, l[i]? = some s ∧ inRange off len (n + i) = true ∧
        x ∈ stackAboveFirstShared s := by
  induction l generalizing n with
  | nil => simp [collectAbove]
  | cons s rest ih =>
    simp only [collectAbove, List.mem_append]
    rw [ih (n + 1)]
    constructor
    · rintro (h | ⟨i, t, h1, h2, h3⟩)
      · cases hin : inRange off len n with
        | false => rw [hin] at h; simp at h
        | true =>
          rw [hin] at h
          exact ⟨0, s, by simp, by simpa using hin, by simpa using h⟩
      · refine ⟨i + 1, t, by simpa using h1, ?_, h3⟩
        have harith : n + (i + 1) = n + 1 + i := by omega
        rw [harith]; exact h2
    · rintro ⟨i, t, h1, h2, h3⟩
      cases i with
      | zero =>
        left
        simp only [List.getElem?_cons_zero, Option.some.injEq] at h1
        subst h1
        rw [show n + 0 = n from rfl] at h2
        rw [h2]
        simpa using h3
      | succ j =>
        right
        refine ⟨j, t, by simpa using h1, ?_, h3⟩
        have harith : n + 1 + j = n + (j + 1) := by omega
        rw [harith]; exact h2

/-- Run-level characterization of `can_write_through`: true iff some
covered byte's stack splits at its first `Shared` borrow with `edge`
occurring strictly before that borrow. -/
theorem Run.can_write_through_iff_aux (r : Run) (offset len e : Nat) :
    r.can_write_through offset len e = true ↔
      ∃ i s, r.ref_stack[i]? = some s ∧ inRange offset len i = true ∧
        ∃ pre b rest, s = pre ++ b :: rest ∧ b.borrow_type = BorrowType.Shared ∧
          (∀ b' ∈ pre, b'.borrow_type ≠ BorrowType.Shared) ∧ e ∈ pre.map Borrow.edge := by
  unfold Run.can_write_through Run.above_first_shared
  rw [List.elem_iff, mem_collectAbove e offset len 0 r.ref_stack]
  constructor
  · rintro ⟨i, s, h1, h2, h3⟩
    exact ⟨i, s, h1, by simpa using h2, (mem_stackAboveFirstShared e s).mp h3⟩
  · rintro ⟨i, s, h1, h2, h3⟩
    exact ⟨i, s, h1, by simpa using h2, (mem_stackAboveFirstShared e s).mpr h3⟩

/-- Memory-level characterization of `can_write_through` (shared by the
claims about write gating). -/
theorem Memory.can_write_through_iff (m : Memory) (p : RunPointer) (e : Nat) :
    m.can_write_through p e = true ↔
      ∃ i s, m.stackAt p.alloc_id p.run i = some s ∧ inRange p.offset p.size i = true ∧
        ∃ pre b rest, s = pre ++ b :: rest ∧ b.borrow_type = BorrowType.Shared ∧
          (∀ b' ∈ pre, b'.borrow_type ≠ BorrowType.Shared) ∧ e ∈ pre.map Borrow.edge := by
  cases hR : m.runAt p.alloc_id p.run with
  | none =>
    simp only [Memory.can_write_through, Memory.stackAt, hR, Option.none_bind,
      Option.getD_none]
    rw [Run.can_write_through_iff_aux]
    simp
  | some run =>
    simp only [Memory.can_write_through, Memory.stackAt, hR, Option.some_bind,
      Option.getD_some]
    exact Run.can_write_through_iff_aux run p.offset p.size e

/-! ## Claim C1 -/

/-- Scenario B of the spec: an 8-byte run, `e1 = 1` Exclusive over `[0,8)`,
then `e2 = 2` Shared over `[0,8)`. -/
def memScB : Memory :=
  ((Memory.new.allocateWithRuns [8]).addRef ⟨0, 0, 0, 8⟩ BorrowType.Exclusive 1).addRef
    ⟨0, 0, 0, 8⟩ BorrowType.Shared 2

/-- C1 (counterexample): contrary to the claim, after pushing `e1`
Exclusive and then `e2` Shared over the whole region,
`can_write_through(e1)` is `true` and `can_write_through(e2)` is `false` —
the code permits writes through edges strictly below the first Shared
borrow, not at-or-above it. -/
theorem c1_counterexample :
    memScB.can_write_through ⟨0, 0, 0, 8⟩ 1 = true ∧
      memScB.can_write_through ⟨0, 0, 0, 8⟩ 2 = false := by
  constructor <;> rfl

/-- C1 (amended): `can_write_through(p, e)` returns true iff for SOME byte
covered by `p` (union across covered bytes, not all of them), `e` occurs
strictly below (pushed strictly before) the first Shared-kind borrow of
that byte's stack.  In Scenario B this makes `can_write_through(e1)` true
and `can_write_through(e2)` false. -/
theorem c1_can_write_through_characterization (m : Memory) (p : RunPointer) (e : Nat) :
    m.can_write_through p e = true ↔
      ∃ i s, m.stackAt p.alloc_id p.run i = some s ∧ inRange p.offset p.size i = true ∧
        ∃ pre b rest, s = pre ++ b :: rest ∧ b.borrow_type = BorrowType.Shared ∧
          (∀ b' ∈ pre, b'.borrow_type ≠ BorrowType.Shared) ∧ e ∈ pre.map Borrow.edge :=
  Memory.can_write_through_iff m p e

/-! ## Claim C10 -/

/-- C10: when no Shared-kind borrow is present in any covered byte's stack,
`can_write_through(p, e)` returns false — even when `e` is an Exclusive or
Raw borrow present on every covered byte. -/
theorem c10_can_write_through_no_shared (m : Memory) (p : RunPointer) (e : Nat)
    (h : ∀ i s, m.stackAt p.alloc_id p.run i = some s → inRange p.offset p.size i = true →
      ∀ b ∈ s, b.borrow_type ≠ BorrowType.Shared) :
    m.can_write_through p e = false := by
  cases hcw : m.can_write_through p e with
  | false => rfl
  | true =>
    exfalso
    obtain ⟨i, s, h1, h2, pre, b, rest, heq, hsh, -, -⟩ :=
      (Memory.can_write_through_iff m p e).mp hcw
    exact h i s h1 h2 b (by rw [heq]; simp) hsh

/-- Memory with a single 1-byte run holding one Exclusive borrow (edge 7)
and no Shared borrow anywhere. -/
def memNoShared : Memory :=
  (Memory.new.allocateWithRuns [1]).addRef ⟨0, 0, 0, 1⟩ BorrowType.Exclusive 7

theorem c10_witness : memNoShared.can_write_through ⟨0, 0, 0, 1⟩ 7 = false := by
  apply c10_can_write_through_no_shared
  intro i s hs hin b hb
  cases i with
  | zero =>
    have h' : memNoShared.stackAt 0 0 0 = some [⟨BorrowType.Exclusive, 7⟩] := rfl
    have hs' : s = [⟨BorrowType.Exclusive, 7⟩] := by
      have := h'.symm.trans hs
      exact (Option.some.injEq _ _ ▸ this).symm
    rw [hs'] at hb
    simp only [List.mem_singleton] at hb
    rw [hb]
    decide
  | succ j =>
    have h' : memNoShared.stackAt 0 0 (j + 1) = none := rfl
    rw [h'] at hs
    exact Option.noConfusion hs

/-! ## Claim C7 -/

/-- Membership of a point in an optional fragment returned by
`ByteRange.subtract`. -/
def fragMem (o : Option ByteRange) (x : Nat) : Prop :=
  ∃ rg, o = some rg ∧ rg.mem x

/-- Statement of the range-subtraction partition property for `a - b`:
the two optional fragments are exactly the ones the source computes, they
are disjoint from each other and from `b`, and together with `a ∩ b` they
reconstruct `a`. -/
def SubtractPartition (a b : ByteRange) : Prop :=
  ((a.subtract b).1 = (if a.start < b.start then some ⟨a.start, b.start⟩ else none) ∧
    (a.subtract b).2 = (if b.stop < a.stop then some ⟨b.stop, a.stop⟩ else none)) ∧
  ∀ x : Nat,
    (fragMem (a.subtract b).1 x → ¬ fragMem (a.subtract b).2 x) ∧
    (fragMem (a.subtract b).1 x → ¬ b.mem x) ∧
    (fragMem (a.subtract b).2 x → ¬ b.mem x) ∧
    ((fragMem (a.subtract b).1 x ∨ fragMem (a.subtract b).2 x ∨ (a.mem x ∧ b.mem x)) ↔
      a.mem x)

/-- C7: for overlapping (inclusive test) well-formed byte ranges, the at
most two fragments of `a.subtract b` are pairwise disjoint, disjoint from
`b`, and their union with `a ∩ b` reconstructs `a` exactly. -/
theorem c7_subtract_partition (a b : ByteRange) (ha : a.start ≤ a.stop)
    (hb : b.start ≤ b.stop) (hov : a.overlap b = true) : SubtractPartition a b := by
  have hov' : a.start ≤ b.stop ∧ b.start ≤ a.stop := by
    simpa [ByteRange.overlap] using hov
  constructor
  · constructor <;> rfl
  · intro x
    by_cases h1 : a.start < b.start <;> by_cases h2 : b.stop < a.stop <;>
      simp only [ByteRange.subtract, fragMem, ByteRange.mem, h1, h2,
        ite_true, ite_false, Option.some.injEq, reduceCtorEq,
        false_and, exists_false, exists_eq_left', not_false_eq_true, true_and,
        false_or, or_false, not_exists, not_and, imp_true_iff, false_implies,
        and_true] <;>
      omega

/-- Witness for C7 at `a = [0,4)`, `b = [1,2)`. -/
theorem c7_subtract_partition_witness :
    (0 ≤ 4 ∧ 1 ≤ 2 ∧ (⟨0, 4⟩ : ByteRange).overlap ⟨1, 2⟩ = true) ∧
      SubtractPartition ⟨0, 4⟩ ⟨1, 2⟩ :=
  ⟨⟨by decide, by decide, by decide⟩,
    c7_subtract_partition ⟨0, 4⟩ ⟨1, 2⟩ (by decide) (by decide) (by decide)⟩

/-! ## Claim C8 -/

/-- C8: `RunPointer.overlap` is symmetric, and holds iff the two pointers
share the allocation id and run id and their byte ranges intersect under
the inclusive-endpoint test (so touching ranges count as overlapping). -/
theorem c8_overlap_symm_characterization :
    (∀ a b : RunPointer, a.overlap b = b.overlap a) ∧
    (∀ a b : RunPointer, a.overlap b = true ↔
      a.alloc_id = b.alloc_id ∧ a.run = b.run ∧
        a.offset ≤ b.offset + b.size ∧ b.offset ≤ a.offset + a.size) := by
  have char : ∀ a b : RunPointer, a.overlap b = true ↔
      a.alloc_id = b.alloc_id ∧ a.run = b.run ∧
        a.offset ≤ b.offset + b.size ∧ b.offset ≤ a.offset + a.size := by
    intro a b
    unfold RunPointer.overlap ByteRange.overlap RunPointer.bytes_range
    by_cases h1 : a.alloc_id = b.alloc_id <;> by_cases h2 : a.run = b.run <;>
      simp [h1, h2]
  refine ⟨?_, char⟩
  intro a b
  by_cases hab : a.overlap b = true
  · have h := (char a b).mp hab
    have hba : b.overlap a = true := (char b a).mpr ⟨h.1.symm, h.2.1.symm, h.2.2.2, h.2.2.1⟩
    rw [hab, hba]
  · by_cases hba : b.overlap a = true
    · have h := (char b a).mp hba
      exact absurd ((char a b).mpr ⟨h.1.symm, h.2.1.symm, h.2.2.2, h.2.2.1⟩) hab
    · rw [Bool.not_eq_true] at hab hba
      rw [hab, hba]

/-! ## Claim C9 -/

/-- C9: `ty_size` returns the guaranteed size of every primitive type —
0 bytes for unit, 1 for bool, 4 for char, `N/8` bytes for `N`-bit integers
and floats, the configured pointer width for `isize`/`usize`/raw
pointers/references, element size times length for arrays — and no size
for composite/aggregate types. -/
theorem c9_ty_size_primitives :
    ty_size Ty.unit = some 0 ∧
    ty_size Ty.bool = some 1 ∧
    ty_size Ty.char = some 4 ∧
    (ty_size Ty.i8 = some 1 ∧ ty_size Ty.u8 = some 1) ∧
    (ty_size Ty.i16 = some 2 ∧ ty_size Ty.u16 = some 2) ∧
    (ty_size Ty.i32 = some 4 ∧ ty_size Ty.u32 = some 4) ∧
    (ty_size Ty.i64 = some 8 ∧ ty_size Ty.u64 = some 8) ∧
    (ty_size Ty.i128 = some 16 ∧ ty_size Ty.u128 = some 16) ∧
    ty_size Ty.f32 = some 4 ∧
    ty_size Ty.f64 = some 8 ∧
    ty_size Ty.isize = some PTR_SIZE ∧
    ty_size Ty.usize = some PTR_SIZE ∧
    (∀ t, ty_size (Ty.rawPtr t) = some PTR_SIZE) ∧
    (∀ t, ty_size (Ty.ref t) = some PTR_SIZE) ∧
    (∀ t n, ty_size (Ty.array t n) = (ty_size t).map (fun s => s * n)) ∧
    (∀ fields, ty_size (Ty.tuple fields) = none) :=
  ⟨rfl, rfl, rfl, ⟨rfl, rfl⟩, ⟨rfl, rfl⟩, ⟨rfl, rfl⟩, ⟨rfl, rfl⟩, ⟨rfl, rfl⟩,
    rfl, rfl, rfl, rfl, fun _ => rfl, fun _ => rfl, fun _ _ => rfl, fun _ => rfl⟩

/-! ## Claim C3 -/

theorem Memory.ext' (m1 m2 : Memory) (h1 : m1.allocations = m2.allocations)
    (h2 : m1.pointers = m2.pointers) : m1 = m2 := by
  cases m1; cases m2; cases h1; cases h2; rfl

theorem mapIdxFrom_mapIdxFrom (f g : Nat → α → α) (n : Nat) (l : List α) :
    mapIdxFrom f n (mapIdxFrom g n l) = mapIdxFrom (fun i a => f i (g i a)) n l := by
  induction l generalizing n with
  | nil => rfl
  | cons a as ih => simp [mapIdxFrom, ih]

theorem lookupPtrs_insertPtrs_self (m : List (Nat × List RunPointer)) (e : Nat)
    (v : List RunPointer) : lookupPtrs (insertPtrs m e v) e = some v := by
  simp [insertPtrs, lookupPtrs]

theorem erasePtrs_erasePtrs (m : List (Nat × List RunPointer)) (e : Nat) :
    erasePtrs (erasePtrs m e) e = erasePtrs m e := by
  induction m with
  | nil => rfl
  | cons kv rest ih =>
    by_cases hk : kv.1 = e
    · simp [erasePtrs, hk, ih]
    · simp [erasePtrs, hk, ih]

theorem erasePtrs_insertPtrs (m : List (Nat × List RunPointer)) (e : Nat)
    (v : List RunPointer) : erasePtrs (insertPtrs m e v) e = erasePtrs m e := by
  simp [insertPtrs, erasePtrs, erasePtrs_erasePtrs]

theorem erasePtrs_of_lookup_none (m : List (Nat × List RunPointer)) (e : Nat)
    (h : lookupPtrs m e = none) : erasePtrs m e = m := by
  induction m with
  | nil => rfl
  | cons kv rest ih =>
    simp only [lookupPtrs] at h
    by_cases hk : kv.1 = e
    · rw [if_pos hk] at h; exact Option.noConfusion h
    · rw [if_neg hk] at h
      simp [erasePtrs, hk, ih h]

theorem removeBorrowStack_append_self (e : Nat) (bt : BorrowType) (s : List Borrow)
    (h : e ∉ s.map Borrow.edge) : removeBorrowStack e (s ++ [⟨bt, e⟩]) = s := by
  induction s with
  | nil => simp [removeBorrowStack]
  | cons b bs ih =>
    simp only [List.map_cons, List.mem_cons] at h
    push_neg at h
    simp only [List.cons_append, removeBorrowStack]
    rw [if_neg (fun hc => h.1 hc.symm)]
    show b :: removeBorrowStack e (bs ++ [⟨bt, e⟩]) = b :: bs
    rw [ih h.2]

theorem remove_add_stacks (offset len : Nat) (bt : BorrowType) (e : Nat)
    (l : List (List Borrow))
    (h : ∀ (i : Nat) (s : List Borrow), l[i]? = some s → e ∉ s.map Borrow.edge) :
    mapIdxFrom
      (fun i (s : List Borrow) => if inRange offset len i then removeBorrowStack e s else s) 0
      (mapIdxFrom
        (fun i (s : List Borrow) => if inRange offset len i then s ++ [⟨bt, e⟩] else s) 0 l) =
      l := by
  rw [mapIdxFrom_mapIdxFrom]
  apply mapIdxFrom_eq_self
  intro i s hs
  cases hin : inRange offset len i with
  | false => simp [hin]
  | true => simp [hin, removeBorrowStack_append_self e bt s (h i s hs)]

theorem remove_add_borrow (run : Run) (offset len : Nat) (bt : BorrowType) (e : Nat)
    (h : ∀ (i : Nat) (s : List Borrow), run.ref_stack[i]? = some s →
      e ∉ s.map Borrow.edge) :
    (run.add_borrow offset len bt e).remove_borrow offset len e = run := by
  obtain ⟨bytes0, stacks0⟩ := run
  dsimp only [Run.add_borrow, Run.remove_borrow] at h ⊢
  rw [remove_add_stacks offset len bt e stacks0 h]

theorem addRef_removeRef_eq (m : Memory) (p : RunPointer) (bt : BorrowType) (e : Nat)
    (hstacks : ∀ (a r i : Nat) (s : List Borrow), m.stackAt a r i = some s → e ∉ s.map Borrow.edge)
    (hptr : lookupPtrs m.pointers e = none) :
    (m.addRef p bt e).removeRef e = m := by
  have hpt : (m.addRef p bt e).pointers = insertPtrs m.pointers e [p] := by
    simp only [Memory.addRef, Memory.modifyRun, hptr]
  have hlk : lookupPtrs (m.addRef p bt e).pointers e = some [p] := by
    rw [hpt]; exact lookupPtrs_insertPtrs_self m.pointers e [p]
  unfold Memory.removeRef
  rw [hlk]
  simp only [List.foldl_cons, List.foldl_nil]
  apply Memory.ext'
  · show (((m.addRef p bt e).modifyRun p.alloc_id p.run
      (fun run => run.remove_borrow p.offset p.size e)).allocations) = m.allocations
    have ha1 : (m.addRef p bt e).allocations =
        listModify
          (fun al => { al with
            runs := listModify (fun run => run.add_borrow p.offset p.size bt e) p.run al.runs })
          p.alloc_id m.allocations := rfl
    show listModify
        (fun al => { al with
          runs := listModify (fun run => run.remove_borrow p.offset p.size e) p.run al.runs })
        p.alloc_id (m.addRef p bt e).allocations = m.allocations
    rw [ha1, listModify_listModify]
    apply listModify_eq_self
    intro al hal
    have hruns :
        listModify (fun run => run.remove_borrow p.offset p.size e) p.run
          (listModify (fun run => run.add_borrow p.offset p.size bt e) p.run al.runs) =
          al.runs := by
      rw [listModify_listModify]
      apply listModify_eq_self
      intro run hrun
      apply remove_add_borrow
      intro i s hs
      exact hstacks p.alloc_id p.run i s
        (by simp [Memory.stackAt, Memory.runAt, hal, hrun, hs])
    simp only [hruns]
  · show erasePtrs ((m.addRef p bt e).modifyRun p.alloc_id p.run
      (fun run => run.remove_borrow p.offset p.size e)).pointers e = m.pointers
    have : ((m.addRef p bt e).modifyRun p.alloc_id p.run
        (fun run => run.remove_borrow p.offset p.size e)).pointers =
        (m.addRef p bt e).pointers := rfl
    rw [this, hpt, erasePtrs_insertPtrs, erasePtrs_of_lookup_none m.pointers e hptr]

/-- C3: for a fresh edge `e` (absent from every borrow stack and from the
reverse index), `add_ref(p, k, e)` followed by `remove_ref(e)` restores
every byte's borrow stack (in particular over `p`'s range) exactly, and
leaves `e` absent from the reverse index again. -/
theorem c3_add_ref_remove_ref_roundtrip (m : Memory) (p : RunPointer) (bt : BorrowType)
    (e : Nat)
    (hstacks : ∀ (a r i : Nat) (s : List Borrow), m.stackAt a r i = some s → e ∉ s.map Borrow.edge)
    (hptr : lookupPtrs m.pointers e = none) :
    (∀ i, ((m.addRef p bt e).removeRef e).stackAt p.alloc_id p.run i =
      m.stackAt p.alloc_id p.run i) ∧
      lookupPtrs ((m.addRef p bt e).removeRef e).pointers e = none := by
  rw [addRef_removeRef_eq m p bt e hstacks hptr]
  exact ⟨fun _ => rfl, hptr⟩

/-- Memory with one live 2-byte allocation and no borrows at all. -/
def memFresh : Memory := Memory.new.allocateWithRuns [2]

theorem c3_witness :
    (∀ i, ((memFresh.addRef ⟨0, 0, 0, 2⟩ BorrowType.Exclusive 5).removeRef 5).stackAt 0 0 i =
      memFresh.stackAt 0 0 i) ∧
      lookupPtrs ((memFresh.addRef ⟨0, 0, 0, 2⟩ BorrowType.Exclusive 5).removeRef 5).pointers
        5 = none := by
  have h := c3_add_ref_remove_ref_roundtrip memFresh ⟨0, 0, 0, 2⟩ BorrowType.Exclusive 5
    ?_ ?_
  · exact h
  · intro a r i s hs
    cases a with
    | succ n =>
      have hnone : memFresh.stackAt (n + 1) r i = none := rfl
      rw [hnone] at hs
      exact Option.noConfusion hs
    | zero =>
      cases r with
      | succ n =>
        have hnone : memFresh.stackAt 0 (n + 1) i = none := rfl
        rw [hnone] at hs
        exact Option.noConfusion hs
      | zero =>
        cases i with
        | zero =>
          have hz : memFresh.stackAt 0 0 0 = some [] := rfl
          rw [hz] at hs
          injection hs with h'
          rw [← h']
          simp
        | succ j =>
          cases j with
          | zero =>
            have hz : memFresh.stackAt 0 0 1 = some [] := rfl
            rw [hz] at hs
            injection hs with h'
            rw [← h']
            simp
          | succ k =>
            have hnone : memFresh.stackAt 0 0 (k + 2) = none := rfl
            rw [hnone] at hs
            exact Option.noConfusion hs
  · rfl

/-! ## Shared lemmas about `modifyRun` and the reverse index -/

theorem Memory.runAt_modifyRun (m : Memory) (aA rR : Nat) (f : Run → Run) (a r : Nat) :
    (m.modifyRun aA rR f).runAt a r =
      if a = aA ∧ r = rR then (m.runAt a r).map f else m.runAt a r := by
  unfold Memory.modifyRun Memory.runAt
  show (listModify _ aA m.allocations)[a]?.bind _ = _
  rw [listModify_getElem?]
  by_cases ha : a = aA
  · rw [if_pos ha]
    cases hA : m.allocations[a]? with
    | none => simp [ha]
    | some al =>
      simp only [Option.map_some', Option.some_bind]
      show (listModify f rR al.runs)[r]? = _
      rw [listModify_getElem?]
      by_cases hr : r = rR
      · simp [ha, hr]
      · simp [ha, hr]
  · simp [ha]

theorem Memory.pointers_modifyRun (m : Memory) (aA rR : Nat) (f : Run → Run) :
    (m.modifyRun aA rR f).pointers = m.pointers := rfl

theorem Memory.stackAt_modifyRun_of_ref_stack_eq (m : Memory) (aA rR : Nat) (f : Run → Run)
    (hf : ∀ run, (f run).ref_stack = run.ref_stack) (a r i : Nat) :
    (m.modifyRun aA rR f).stackAt a r i = m.stackAt a r i := by
  unfold Memory.stackAt
  rw [Memory.runAt_modifyRun]
  by_cases h : a = aA ∧ r = rR
  · rw [if_pos h]
    cases m.runAt a r with
    | none => rfl
    | some run => simp [hf]
  · rw [if_neg h]

theorem Memory.byteAt_modifyRun_of_bytes_eq (m : Memory) (aA rR : Nat) (f : Run → Run)
    (hf : ∀ run, (f run).bytes = run.bytes) (a r i : Nat) :
    (m.modifyRun aA rR f).byteAt a r i = m.byteAt a r i := by
  unfold Memory.byteAt
  rw [Memory.runAt_modifyRun]
  by_cases h : a = aA ∧ r = rR
  · rw [if_pos h]
    cases m.runAt a r with
    | none => rfl
    | some run => simp [hf]
  · rw [if_neg h]

theorem lookupPtrs_erasePtrs_ne (m : List (Nat × List RunPointer)) (k e : Nat)
    (h : e ≠ k) : lookupPtrs (erasePtrs m k) e = lookupPtrs m e := by
  induction m with
  | nil => rfl
  | cons kv rest ih =>
    by_cases hk : kv.1 = k
    · have h1 : erasePtrs (kv :: rest) k = erasePtrs rest k := by
        simp [erasePtrs, hk]
      rw [h1, ih]
      show _ = (if kv.1 = e then some kv.2 else lookupPtrs rest e)
      rw [if_neg (fun hc : kv.1 = e => h (hc ▸ hk))]
    · have h1 : erasePtrs (kv :: rest) k = kv :: erasePtrs rest k := by
        simp [erasePtrs, hk]
      rw [h1]
      show (if kv.1 = e then some kv.2 else lookupPtrs (erasePtrs rest k) e) = _
      rw [ih]
      rfl

/-! ## Claim C4 -/

theorem splice_getElem?_outside (b data : List AbstractByte) (o sz i : Nat)
    (hlen : data.length = sz) (hbound : o + sz ≤ b.length)
    (hout : i < o ∨ o + sz ≤ i) :
    (b.take o ++ data ++ b.drop (o + sz))[i]? = b[i]? := by
  have hto : (b.take o).length = o := by
    rw [List.length_take]; omega
  rcases hout with hlt | hge
  · rw [List.append_assoc, List.getElem?_append, hto, if_pos hlt,
      List.getElem?_take_of_lt hlt]
  · rw [List.append_assoc, List.getElem?_append, hto, if_neg (by omega),
      List.getElem?_append, hlen, if_neg (by omega), List.getElem?_drop]
    congr 1
    omega

theorem splice_extract (b data : List AbstractByte) (o sz : Nat)
    (hlen : data.length = sz) (hbound : o + sz ≤ b.length) :
    ((b.take o ++ data ++ b.drop (o + sz)).drop o).take sz = data := by
  have hto : (b.take o).length = o := by
    rw [List.length_take]; omega
  rw [List.append_assoc, List.drop_left' hto, List.take_left' hlen]

theorem splice_length (b data : List AbstractByte) (o sz : Nat)
    (hlen : data.length = sz) (hbound : o + sz ≤ b.length) :
    (b.take o ++ data ++ b.drop (o + sz)).length = b.length := by
  simp only [List.length_append, List.length_take, List.length_drop, hlen]
  omega

/-- Success postcondition bundle for `copy(dst, src)`: the destination now
reads as the pre-call source bytes, every borrow stack is untouched, the
reverse index is untouched, and byte contents outside `dst`'s range are
untouched. -/
def CopyEffect (m : Memory) (dst src : RunPointer) : Prop :=
  ∃ m', m.copy dst src = some m' ∧
    m'.bytesOf dst = m.bytesOf src ∧
    (∀ a r i, m'.stackAt a r i = m.stackAt a r i) ∧
    m'.pointers = m.pointers ∧
    ∀ a r i, dst.covers a r i = false → m'.byteAt a r i = m.byteAt a r i

/-- C4: `copy(dst, src)` is a fatal precondition violation when the sizes
differ; with equal sizes and live, in-bounds operands it succeeds, makes
`dst` read as the pre-call `src` bytes, and changes nothing else (no
borrow stack, no reverse-index entry, no byte outside `dst`'s range). -/
theorem c4_copy_spec (m : Memory) (dst src : RunPointer) :
    (dst.size ≠ src.size → m.copy dst src = none) ∧
    (dst.size = src.size → m.isLive dst.alloc_id = true → m.isLive src.alloc_id = true →
      m.inBounds dst = true → m.inBounds src = true → CopyEffect m dst src) := by
  constructor
  · intro h
    simp [Memory.copy, h]
  · intro hsz hld hls hbd hbs
    cases hAs : m.allocations[src.alloc_id]? with
    | none => simp [Memory.inBounds, hAs] at hbs
    | some alS =>
    cases hRs : alS.runs[src.run]? with
    | none => simp [Memory.inBounds, hAs, hRs] at hbs
    | some runS =>
    have hboundS : src.offset + src.size ≤ runS.bytes.length := by
      simpa [Memory.inBounds, hAs, hRs] using hbs
    have hliveS : alS.live = true := by
      simpa [Memory.isLive, hAs] using hls
    cases hAd : m.allocations[dst.alloc_id]? with
    | none => simp [Memory.inBounds, hAd] at hbd
    | some alD =>
    cases hRd : alD.runs[dst.run]? with
    | none => simp [Memory.inBounds, hAd, hRd] at hbd
    | some runD =>
    have hboundD : dst.offset + dst.size ≤ runD.bytes.length := by
      simpa [Memory.inBounds, hAd, hRd] using hbd
    have hliveD : alD.live = true := by
      simpa [Memory.isLive, hAd] using hld
    have hbytesS : m.bytesOf src = some ((runS.bytes.drop src.offset).take src.size) := by
      simp [Memory.bytesOf, hAs, hRs, hliveS, hboundS]
    have hdata_len : ((runS.bytes.drop src.offset).take src.size).length = dst.size := by
      simp only [List.length_take, List.length_drop]
      omega
    have hw : m.copy dst src = m.writeBytes dst ((runS.bytes.drop src.offset).take src.size) := by
      unfold Memory.copy
      rw [if_neg (fun hne => hne hsz), hbytesS]
    have hwv : m.writeBytes dst ((runS.bytes.drop src.offset).take src.size) =
        some (m.modifyRun dst.alloc_id dst.run (fun run =>
          { run with
            bytes := run.bytes.take dst.offset ++
              ((runS.bytes.drop src.offset).take src.size) ++
              run.bytes.drop (dst.offset + dst.size) })) := by
      simp [Memory.writeBytes, hAd, hRd, hliveD, hboundD]
    refine ⟨_, hw.trans hwv, ?_, ?_, rfl, ?_⟩
    · -- the destination now reads as the pre-call source bytes
      rw [hbytesS]
      have hA' : (m.modifyRun dst.alloc_id dst.run (fun run =>
          { run with
            bytes := run.bytes.take dst.offset ++
              ((runS.bytes.drop src.offset).take src.size) ++
              run.bytes.drop (dst.offset + dst.size) })).allocations[dst.alloc_id]? =
          some { alD with
            runs := listModify (fun run =>
              { run with
                bytes := run.bytes.take dst.offset ++
                  ((runS.bytes.drop src.offset).take src.size) ++
                  run.bytes.drop (dst.offset + dst.size) }) dst.run alD.runs } := by
        show (listModify _ dst.alloc_id m.allocations)[dst.alloc_id]? = _
        rw [listModify_getElem?, if_pos rfl, hAd]
        rfl
      have hR' : (listModify (fun run =>
          { run with
            bytes := run.bytes.take dst.offset ++
              ((runS.bytes.drop src.offset).take src.size) ++
              run.bytes.drop (dst.offset + dst.size) }) dst.run alD.runs)[dst.run]? =
          some { runD with
            bytes := runD.bytes.take dst.offset ++
              ((runS.bytes.drop src.offset).take src.size) ++
              runD.bytes.drop (dst.offset + dst.size) } := by
        rw [listModify_getElem?, if_pos rfl, hRd]
        rfl
      have hlen' : (runD.bytes.take dst.offset ++
          ((runS.bytes.drop src.offset).take src.size) ++
          runD.bytes.drop (dst.offset + dst.size)).length = runD.bytes.length :=
        splice_length _ _ _ _ hdata_len hboundD
      simp only [Memory.bytesOf, hA', hliveD, if_true, hR', hlen', hboundD]
      exact congrArg some (splice_extract _ _ _ _ hdata_len hboundD)
    · intro a r i
      apply Memory.stackAt_modifyRun_of_ref_stack_eq
      intro run
      rfl
    · intro a r i hcov
      unfold Memory.byteAt
      rw [Memory.runAt_modifyRun]
      by_cases h : a = dst.alloc_id ∧ r = dst.run
      · rw [if_pos h]
        have hrun : m.runAt a r = some runD := by
          simp [Memory.runAt, h.1, h.2, hAd, hRd]
        rw [hrun]
        simp only [Option.map_some', Option.some_bind]
        apply splice_getElem?_outside _ _ _ _ _ hdata_len hboundD
        have : ¬(dst.offset ≤ i ∧ i < dst.offset + dst.size) := by
          intro hin
          have : dst.covers a r i = true := by
            simp [RunPointer.covers, h.1, h.2, hin.1, hin.2]
          rw [this] at hcov
          exact Bool.noConfusion hcov
        omega
      · rw [if_neg h]

/-- Witness inputs for C4: a live 2-byte run, `dst = [0,1)`, `src = [1,2)`. -/
theorem c4_witness :
    ((0 : Nat) ≠ 2 ∧ memFresh.copy ⟨0, 0, 0, 0⟩ ⟨0, 0, 0, 2⟩ = none) ∧
      ((1 : Nat) = 1 ∧ memFresh.isLive 0 = true ∧ memFresh.inBounds ⟨0, 0, 0, 1⟩ = true ∧
        memFresh.inBounds ⟨0, 0, 1, 1⟩ = true ∧
        CopyEffect memFresh ⟨0, 0, 0, 1⟩ ⟨0, 0, 1, 1⟩) :=
  ⟨⟨by decide, (c4_copy_spec memFresh ⟨0, 0, 0, 0⟩ ⟨0, 0, 0, 2⟩).1 (by decide)⟩,
    ⟨rfl, by decide, by decide, by decide,
      (c4_copy_spec memFresh ⟨0, 0, 0, 1⟩ ⟨0, 0, 1, 1⟩).2 rfl (by decide) (by decide)
        (by decide) (by decide)⟩⟩

/-! ## Claim C5 -/

/-- Statement bundle: every byte access through `p` (read, fill/write,
copy in either role) is a fatal precondition violation on `m`. -/
def DeadFatal (m : Memory) (p : RunPointer) (v : AbstractByte) : Prop :=
  m.bytesOf p = none ∧ m.fill p v = none ∧
    ∀ q, m.copy p q = none ∧ m.copy q p = none

/-- Statement bundle: every byte access through `p` succeeds on `m`
(for `copy`, with a live, in-bounds, equal-size peer). -/
def LiveOk (m : Memory) (p : RunPointer) (v : AbstractByte) : Prop :=
  (m.bytesOf p).isSome = true ∧ (m.fill p v).isSome = true ∧
    ∀ q, m.isLive q.alloc_id = true → m.inBounds q = true → q.size = p.size →
      (m.copy p q).isSome = true ∧ (m.copy q p).isSome = true

theorem c5_bytesOf_dead (m : Memory) (p : RunPointer)
    (hdead : m.isLive p.alloc_id = false) : m.bytesOf p = none := by
  cases hA : m.allocations[p.alloc_id]? with
  | none => simp [Memory.bytesOf, hA]
  | some al =>
    have : al.live = false := by simpa [Memory.isLive, hA] using hdead
    simp [Memory.bytesOf, hA, this]

theorem c5_writeBytes_dead (m : Memory) (p : RunPointer) (data : List AbstractByte)
    (hdead : m.isLive p.alloc_id = false) : m.writeBytes p data = none := by
  cases hA : m.allocations[p.alloc_id]? with
  | none => simp [Memory.writeBytes, hA]
  | some al =>
    have : al.live = false := by simpa [Memory.isLive, hA] using hdead
    simp [Memory.writeBytes, hA, this]

theorem c5_copy_dead_dst (m : Memory) (p q : RunPointer)
    (hdead : m.isLive p.alloc_id = false) : m.copy p q = none := by
  unfold Memory.copy
  by_cases hsz : p.size ≠ q.size
  · rw [if_pos hsz]
  · rw [if_neg hsz]
    cases m.bytesOf q with
    | none => rfl
    | some t => exact c5_writeBytes_dead m p t hdead

theorem c5_copy_dead_src (m : Memory) (p q : RunPointer)
    (hdead : m.isLive p.alloc_id = false) : m.copy q p = none := by
  unfold Memory.copy
  by_cases hsz : q.size ≠ p.size
  · rw [if_pos hsz]
  · rw [if_neg hsz]
    rw [c5_bytesOf_dead m p hdead]

/-- C5: for an in-bounds pointer `p` into allocation `a`, every byte
access through `p` after `deallocate(a)` is a fatal precondition
violation; while the allocation is live they all succeed; and a fresh
allocation starts out live. -/
theorem c5_liveness_gating (m : Memory) (a : Nat) (p : RunPointer) (v : AbstractByte)
    (hpa : p.alloc_id = a) (hb : m.inBounds p = true) :
    DeadFatal (m.deallocate a) p v ∧
      (m.isLive p.alloc_id = true → LiveOk m p v) ∧
      ∀ sizes, (m.allocateWithRuns sizes).isLive m.allocations.length = true := by
  subst hpa
  cases hA : m.allocations[p.alloc_id]? with
  | none => simp [Memory.inBounds, hA] at hb
  | some al =>
  cases hR : al.runs[p.run]? with
  | none => simp [Memory.inBounds, hA, hR] at hb
  | some run =>
  have hbound : p.offset + p.size ≤ run.bytes.length := by
    simpa [Memory.inBounds, hA, hR] using hb
  have hA' : (m.deallocate p.alloc_id).allocations[p.alloc_id]? =
      some { al with live := false } := by
    show (listModify _ p.alloc_id m.allocations)[p.alloc_id]? = _
    rw [listModify_getElem?, if_pos rfl, hA]
    rfl
  have hdead : (m.deallocate p.alloc_id).isLive p.alloc_id = false := by
    simp [Memory.isLive, hA']
  refine ⟨⟨c5_bytesOf_dead _ p hdead, c5_writeBytes_dead _ p _ hdead,
    fun q => ⟨c5_copy_dead_dst _ p q hdead, c5_copy_dead_src _ p q hdead⟩⟩, ?_, ?_⟩
  · intro hlive
    have hliveAl : al.live = true := by simpa [Memory.isLive, hA] using hlive
    have hread : m.bytesOf p = some ((run.bytes.drop p.offset).take p.size) := by
      simp [Memory.bytesOf, hA, hR, hliveAl, hbound]
    have hwrite : ∀ data, (m.writeBytes p data).isSome = true := by
      intro data
      simp [Memory.writeBytes, hA, hR, hliveAl, hbound]
    refine ⟨by simp [hread], hwrite _, ?_⟩
    intro q hlq hbq hqp
    constructor
    · -- copy p q: read q, write into p
      cases hAq : m.allocations[q.alloc_id]? with
      | none => simp [Memory.inBounds, hAq] at hbq
      | some alq =>
      cases hRq : alq.runs[q.run]? with
      | none => simp [Memory.inBounds, hAq, hRq] at hbq
      | some runq =>
      have hboundq : q.offset + q.size ≤ runq.bytes.length := by
        simpa [Memory.inBounds, hAq, hRq] using hbq
      have hliveq : alq.live = true := by simpa [Memory.isLive, hAq] using hlq
      have hreadq : m.bytesOf q = some ((runq.bytes.drop q.offset).take q.size) := by
        simp [Memory.bytesOf, hAq, hRq, hliveq, hboundq]
      unfold Memory.copy
      rw [if_neg (fun hne => hne hqp.symm), hreadq]
      exact hwrite _
    · -- copy q p: read p, write into q
      cases hAq : m.allocations[q.alloc_id]? with
      | none => simp [Memory.inBounds, hAq] at hbq
      | some alq =>
      cases hRq : alq.runs[q.run]? with
      | none => simp [Memory.inBounds, hAq, hRq] at hbq
      | some runq =>
      have hboundq : q.offset + q.size ≤ runq.bytes.length := by
        simpa [Memory.inBounds, hAq, hRq] using hbq
      have hliveq : alq.live = true := by simpa [Memory.isLive, hAq] using hlq
      unfold Memory.copy
      rw [if_neg (fun hne => hne hqp), hread]
      simp [Memory.writeBytes, hAq, hRq, hliveq, hboundq]
  · intro sizes
    unfold Memory.allocateWithRuns Memory.isLive
    rw [List.getElem?_concat_length]
    rfl

theorem c5_witness :
    ((⟨0, 0, 0, 2⟩ : RunPointer).alloc_id = 0 ∧ memFresh.inBounds ⟨0, 0, 0, 2⟩ = true) ∧
      DeadFatal (memFresh.deallocate 0) ⟨0, 0, 0, 2⟩ AbstractByte.Init ∧
      (memFresh.isLive 0 = true → LiveOk memFresh ⟨0, 0, 0, 2⟩ AbstractByte.Init) ∧
      ∀ sizes, (memFresh.allocateWithRuns sizes).isLive memFresh.allocations.length = true :=
  ⟨⟨rfl, by decide⟩,
    c5_liveness_gating memFresh 0 ⟨0, 0, 0, 2⟩ AbstractByte.Init rfl (by decide)⟩

/-! ## Claim C6 -/

/-- How many of the pointers in `ps` cover the byte `(a, r, i)`. -/
def countCovering (ps : List RunPointer) (a r i : Nat) : Nat :=
  (ps.filter (fun p => p.covers a r i)).length

theorem covers_eq_inRange (p : RunPointer) (i : Nat) :
    p.covers p.alloc_id p.run i = inRange p.offset p.size i := by
  simp [RunPointer.covers, inRange]

theorem covers_false_of_ne (p : RunPointer) (a r i : Nat)
    (h : ¬(a = p.alloc_id ∧ r = p.run)) : p.covers a r i = false := by
  unfold RunPointer.covers
  rcases not_and_or.mp h with h' | h'
  · have hd : decide (p.alloc_id = a) = false := decide_eq_false (fun hc => h' hc.symm)
    simp [hd]
  · have hd : decide (p.run = r) = false := decide_eq_false (fun hc => h' hc.symm)
    simp [hd]

theorem stackAt_addBorrowPtr (m : Memory) (p : RunPointer) (bt : BorrowType) (e : Nat)
    (a r i : Nat) :
    (m.modifyRun p.alloc_id p.run
        (fun run => run.add_borrow p.offset p.size bt e)).stackAt a r i =
      (m.stackAt a r i).map
        (fun s => if p.covers a r i then s ++ [⟨bt, e⟩] else s) := by
  unfold Memory.stackAt
  rw [Memory.runAt_modifyRun]
  by_cases h : a = p.alloc_id ∧ r = p.run
  · rw [if_pos h]
    cases hrun : m.runAt a r with
    | none => rfl
    | some run =>
      simp only [Option.map_some', Option.some_bind]
      show (mapIdxFrom _ 0 run.ref_stack)[i]? = _
      rw [mapIdxFrom_getElem?]
      obtain ⟨rfl, rfl⟩ := h
      rw [covers_eq_inRange]
      cases run.ref_stack[i]? <;> simp
  · rw [if_neg h]
    rw [covers_false_of_ne p a r i h]
    cases m.stackAt a r i <;> simp

def addBorrowFold (ps : List RunPointer) (bt : BorrowType) (e : Nat) (m : Memory) :
    Memory :=
  ps.foldl (fun acc p =>
    acc.modifyRun p.alloc_id p.run (fun run => run.add_borrow p.offset p.size bt e)) m

theorem addBorrowFold_pointers (ps : List RunPointer) (bt : BorrowType) (e : Nat)
    (m : Memory) : (addBorrowFold ps bt e m).pointers = m.pointers := by
  induction ps generalizing m with
  | nil => rfl
  | cons p ps ih => simp only [addBorrowFold, List.foldl_cons] at ih ⊢; rw [ih]; rfl

theorem addBorrowFold_byteAt (ps : List RunPointer) (bt : BorrowType) (e : Nat)
    (m : Memory) (a r i : Nat) :
    (addBorrowFold ps bt e m).byteAt a r i = m.byteAt a r i := by
  induction ps generalizing m with
  | nil => rfl
  | cons p ps ih =>
    simp only [addBorrowFold, List.foldl_cons] at ih ⊢
    rw [ih]
    apply Memory.byteAt_modifyRun_of_bytes_eq
    intro run
    rfl

theorem addBorrowFold_stackAt (ps : List RunPointer) (bt : BorrowType) (e : Nat)
    (m : Memory) (a r i : Nat) :
    (addBorrowFold ps bt e m).stackAt a r i =
      (m.stackAt a r i).map
        (fun s => s ++ List.replicate (countCovering ps a r i) ⟨bt, e⟩) := by
  induction ps generalizing m with
  | nil =>
    show m.stackAt a r i = _
    cases m.stackAt a r i <;> simp [countCovering]
  | cons p ps ih =>
    simp only [addBorrowFold, List.foldl_cons] at ih ⊢
    rw [ih, stackAt_addBorrowPtr]
    cases hs : m.stackAt a r i with
    | none => rfl
    | some s =>
      simp only [Option.map_some']
      cases hc : p.covers a r i with
      | false =>
        have hcount : countCovering (p :: ps) a r i = countCovering ps a r i := by
          simp [countCovering, List.filter_cons, hc]
        simp [hc, hcount]
      | true =>
        have hcount : countCovering (p :: ps) a r i = countCovering ps a r i + 1 := by
          simp [countCovering, List.filter_cons, hc]
        simp [hc, hcount, List.replicate_succ, List.append_assoc,
          List.singleton_append]

/-- Success postcondition bundle for `copy_ref(new, old, kind)` when `old`
has recorded pointer set `ps`: a borrow `{kind, new}` is pushed once per
covering recorded pointer on every covered byte, `new`'s reverse-index
entry becomes exactly `ps`, and nothing else changes. -/
def CopyRefEffect (m : Memory) (new old : Nat) (bt : BorrowType)
    (ps : List RunPointer) : Prop :=
  ∃ m', m.copyRef new old bt = some m' ∧
    lookupPtrs m'.pointers new = some ps ∧
    (∀ e, e ≠ new → lookupPtrs m'.pointers e = lookupPtrs m.pointers e) ∧
    (∀ a r i, m'.stackAt a r i =
      (m.stackAt a r i).map
        (fun s => s ++ List.replicate (countCovering ps a r i) ⟨bt, new⟩)) ∧
    ∀ a r i, m'.byteAt a r i = m.byteAt a r i

/-- C6: `copy_ref(new, old, kind)` is a fatal precondition violation when
`new = old`; otherwise, with `ps` recorded under `old`, it pushes a borrow
`{kind, new}` onto the stack of every byte of every pointer of `ps`
(once per covering pointer) and records `old`'s full pointer set under
`new` in the reverse index, changing nothing else. -/
theorem c6_copy_ref_spec (m : Memory) (new old : Nat) (bt : BorrowType) :
    (new = old → m.copyRef new old bt = none) ∧
    (new ≠ old → ∀ ps, lookupPtrs m.pointers old = some ps →
      CopyRefEffect m new old bt ps) := by
  constructor
  · intro h
    simp [Memory.copyRef, h]
  · intro hne ps hps
    have hcr : m.copyRef new old bt =
        some { addBorrowFold ps bt new m with
          pointers := insertPtrs (addBorrowFold ps bt new m).pointers new ps } := by
      unfold Memory.copyRef
      rw [if_neg hne, hps]
      rfl
    refine ⟨_, hcr, ?_, ?_, ?_, ?_⟩
    · exact lookupPtrs_insertPtrs_self _ new ps
    · intro e he
      show lookupPtrs (insertPtrs (addBorrowFold ps bt new m).pointers new ps) e = _
      unfold insertPtrs
      show (if new = e then some ps else
        lookupPtrs (erasePtrs (addBorrowFold ps bt new m).pointers new) e) = _
      rw [if_neg (fun hc => he hc.symm), lookupPtrs_erasePtrs_ne _ new e he,
        addBorrowFold_pointers]
    · intro a r i
      exact addBorrowFold_stackAt ps bt new m a r i
    · intro a r i
      exact addBorrowFold_byteAt ps bt new m a r i

/-- Memory with a live 2-byte run and an Exclusive borrow (edge 1)
recorded over the whole run. -/
def memCR : Memory :=
  (Memory.new.allocateWithRuns [2]).addRef ⟨0, 0, 0, 2⟩ BorrowType.Exclusive 1

theorem c6_witness :
    (memCR.copyRef 1 1 BorrowType.Shared = none) ∧
      ((2 : Nat) ≠ 1 ∧ lookupPtrs memCR.pointers 1 = some [⟨0, 0, 0, 2⟩]) ∧
      CopyRefEffect memCR 2 1 BorrowType.Shared [⟨0, 0, 0, 2⟩] :=
  ⟨(c6_copy_ref_spec memCR 1 1 BorrowType.Shared).1 rfl,
    ⟨by decide, rfl⟩,
    (c6_copy_ref_spec memCR 2 1 BorrowType.Shared).2 (by decide) [⟨0, 0, 0, 2⟩] rfl⟩

/-! ## Claim C2 -/

/-- The claimed bidirectional consistency invariant: an edge appears in
the borrow stack of a byte iff the reverse index records under it some
resolved pointer covering that byte. -/
def ReverseIndexConsistent (m : Memory) : Prop :=
  ∀ e a r i,
    (∃ s, m.stackAt a r i = some s ∧ e ∈ s.map Borrow.edge) ↔
      ∃ ps, lookupPtrs m.pointers e = some ps ∧ ∃ p ∈ ps, p.covers a r i = true

/-- Reachable state from a fresh store: one 4-byte run, edge 1 Exclusive
over `[0,2)`, edge 2 Raw over `[0,4)` (both fresh, both in bounds). -/
def memBeforeBelow : Memory :=
  ((Memory.new.allocateWithRuns [4]).addRef ⟨0, 0, 0, 2⟩ BorrowType.Exclusive 1).addRef
    ⟨0, 0, 0, 4⟩ BorrowType.Raw 2

/-- The state after additionally calling `remove_ref_below(1, [0,4))`. -/
def memBelowBug : Memory := memBeforeBelow.removeRefBelow 1 ⟨0, 0, 0, 4⟩

/-- The pre-call state satisfies the bidirectional consistency invariant. -/
theorem memBeforeBelow_consistent : ReverseIndexConsistent memBeforeBelow := by
  intro e a r i
  constructor
  · rintro ⟨s, hs, he⟩
    cases a with
    | succ n =>
      have hnone : memBeforeBelow.stackAt (n + 1) r i = none := rfl
      rw [hnone] at hs; exact Option.noConfusion hs
    | zero =>
      cases r with
      | succ n =>
        have hnone : memBeforeBelow.stackAt 0 (n + 1) i = none := rfl
        rw [hnone] at hs; exact Option.noConfusion hs
      | zero =>
        match i, hs with
        | 0, hs =>
          have h0 : memBeforeBelow.stackAt 0 0 0 =
              some [⟨BorrowType.Exclusive, 1⟩, ⟨BorrowType.Raw, 2⟩] := rfl
          rw [h0] at hs
          injection hs with h'
          rw [← h'] at he
          simp at he
          rcases he with rfl | rfl
          · exact ⟨[⟨0, 0, 0, 2⟩], rfl, ⟨0, 0, 0, 2⟩, by simp, by decide⟩
          · exact ⟨[⟨0, 0, 0, 4⟩], rfl, ⟨0, 0, 0, 4⟩, by simp, by decide⟩
        | 1, hs =>
          have h0 : memBeforeBelow.stackAt 0 0 1 =
              some [⟨BorrowType.Exclusive, 1⟩, ⟨BorrowType.Raw, 2⟩] := rfl
          rw [h0] at hs
          injection hs with h'
          rw [← h'] at he
          simp at he
          rcases he with rfl | rfl
          · exact ⟨[⟨0, 0, 0, 2⟩], rfl, ⟨0, 0, 0, 2⟩, by simp, by decide⟩
          · exact ⟨[⟨0, 0, 0, 4⟩], rfl, ⟨0, 0, 0, 4⟩, by simp, by decide⟩
        | 2, hs =>
          have h0 : memBeforeBelow.stackAt 0 0 2 = some [⟨BorrowType.Raw, 2⟩] := rfl
          rw [h0] at hs
          injection hs with h'
          rw [← h'] at he
          simp at he
          subst he
          exact ⟨[⟨0, 0, 0, 4⟩], rfl, ⟨0, 0, 0, 4⟩, by simp, by decide⟩
        | 3, hs =>
          have h0 : memBeforeBelow.stackAt 0 0 3 = some [⟨BorrowType.Raw, 2⟩] := rfl
          rw [h0] at hs
          injection hs with h'
          rw [← h'] at he
          simp at he
          subst he
          exact ⟨[⟨0, 0, 0, 4⟩], rfl, ⟨0, 0, 0, 4⟩, by simp, by decide⟩
        | (n + 4), hs =>
          have hnone : memBeforeBelow.stackAt 0 0 (n + 4) = none := rfl
          rw [hnone] at hs
          exact Option.noConfusion hs
  · rintro ⟨ps, hps, p, hp, hc⟩
    have hlook : lookupPtrs memBeforeBelow.pointers e =
        (if 2 = e then some [⟨0, 0, 0, 4⟩]
          else if 1 = e then some [⟨0, 0, 0, 2⟩] else none) := rfl
    rw [hlook] at hps
    by_cases he2 : 2 = e
    · rw [if_pos he2] at hps
      injection hps with h'
      rw [← h'] at hp
      simp at hp
      subst hp
      subst he2
      simp [RunPointer.covers] at hc
      obtain ⟨⟨ha, hr⟩, hi⟩ := hc
      subst ha
      subst hr
      interval_cases i
      · exact ⟨_, rfl, by decide⟩
      · exact ⟨_, rfl, by decide⟩
      · exact ⟨_, rfl, by decide⟩
      · exact ⟨_, rfl, by decide⟩
    · rw [if_neg he2] at hps
      by_cases he1 : 1 = e
      · rw [if_pos he1] at hps
        injection hps with h'
        rw [← h'] at hp
        simp at hp
        subst hp
        subst he1
        simp [RunPointer.covers] at hc
        obtain ⟨⟨ha, hr⟩, hi⟩ := hc
        subst ha
        subst hr
        interval_cases i
        · exact ⟨_, rfl, by decide⟩
        · exact ⟨_, rfl, by decide⟩
      · rw [if_neg he1] at hps
        exact Option.noConfusion hps

/-- C2: before `remove_ref_below(1, [0,4))`, edge 2 is on byte 2's stack
and its reverse-index entry covers byte 2.  After the call, edge 2 is
still on the stacks of bytes 2 and 3 (where edge 1 was absent, so
`remove_all_below` did not touch them), yet `derange` subtracted the whole
`[0,4)` range from edge 2's reverse-index entry and deleted it — the
bidirectional consistency invariant is violated (and `remove_ref_below`
reports edge 2 as having no borrows left, contradicting its own
documentation). -/
theorem c2_invariant_violated :
    ReverseIndexConsistent memBeforeBelow ∧
      memBelowBug.stackAt 0 0 2 = some [⟨BorrowType.Raw, 2⟩] ∧
      lookupPtrs memBelowBug.pointers 2 = none ∧
      ¬ ReverseIndexConsistent memBelowBug := by
  refine ⟨memBeforeBelow_consistent, rfl, rfl, ?_⟩
  intro h
  have h2 := (h 2 0 0 2).mp ⟨[⟨BorrowType.Raw, 2⟩], rfl, by simp⟩
  obtain ⟨ps, hps, -⟩ := h2
  have : lookupPtrs memBelowBug.pointers 2 = none := rfl
  rw [this] at hps
  exact Option.noConfusion hps

end Rustlantis
